import Mathlib

/-! Formal model of the monaco population Monte Carlo sampler suite.

The sampler implementations (`monaco.samplers`, `monaco.euclidean`) are only
exercised, not defined, by `src/monaco/examples/plot_ND_mixtures.py`; every
definition below is therefore modelled from the specification of the suite:
the annealing schedule, the weight-normalization clamp, construction-time
validation, the Richardson-Lucy deconvolution of the KIDS variants, the
Metropolis-Hastings acceptance rule shared by PMH and CMC, the resampling
step of CMC, and the append-only memory of NPAIS.  Weights that the code
keeps as floating-point numbers are modelled as exact rationals or reals, so
"sums to 1 within floating tolerance" becomes an exact sum.
-/

/-- Modelled from the spec: `AnnealingSchedule.beta` (the schedule is not under
`src/`): a non-decreasing inverse temperature in `(0,1]`, strictly below `1` at
`t = 0` while annealing is active and equal to `1` from iteration `A` on. -/
def beta (A t : ℕ) : ℚ :=
  if t < A then ((t : ℚ) + 1) / ((A : ℚ) + 1) else 1

/-- Modelled from the spec: the runtime weight-normalization clamp (not under
`src/`): negative entries (a deconvolution iterate gone negative) are clamped
to `0`, and a zero total falls back to uniform weights instead of raising. -/
def normalizeWeights (w : List ℚ) : List ℚ :=
  if (w.map (fun x => max x 0)).sum ≤ 0 then
    List.replicate w.length (1 / (w.length : ℚ))
  else
    (w.map (fun x => max x 0)).map (fun x => x / (w.map (fun y => max y 0)).sum)

/-- Modelled from the spec: the uniform weight vector the CMC-family UPDATE
step assigns to the population right after resampling. -/
def uniformWeights (n : ℕ) : List ℚ :=
  List.replicate n (1 / (n : ℚ))

/-- Modelled from the spec: the construction-time configuration error taxonomy
(not under `src/`). -/
inductive ConfigError where
  | nonPositivePopulation
  | emptyScales
  | nonMonotonicAnnealing
  | nonPositiveInnerIterations
deriving DecidableEq

/-- Modelled from the spec: the construction surface of a sampler, reduced to
the fields the validation rules inspect. -/
structure SamplerConfig where
  popSize : ℤ
  scales : List ℚ
  schedule : List ℚ
  innerIters : ℤ

/-- Pairwise non-decreasing test for an annealing schedule. -/
def monotoneSchedule : List ℚ → Bool
  | [] => true
  | [_] => true
  | a :: b :: rest => decide (a ≤ b) && monotoneSchedule (b :: rest)

/-- Modelled from the spec: construction-time validation (not under `src/`):
fail fast on a non-positive population size, an empty scale list, a
non-monotonic annealing schedule or a non-positive deconvolution
inner-iteration count; otherwise construction succeeds. -/
def validate (c : SamplerConfig) : Except ConfigError Unit :=
  if c.popSize ≤ 0 then .error .nonPositivePopulation
  else if c.scales = [] then .error .emptyScales
  else if monotoneSchedule c.schedule = false then .error .nonMonotonicAnnealing
  else if c.innerIters ≤ 0 then .error .nonPositiveInnerIterations
  else .ok ()

/-- Modelled from the spec: the convolution of a weight vector with the
proposing kernel mixture, evaluated at bin `i` (KIDS deconvolution). -/
def kernelConv {n : ℕ} (K : Fin n → Fin n → ℚ) (w : Fin n → ℚ) (i : Fin n) : ℚ :=
  ∑ j, K i j * w j

/-- Modelled from the spec: one Richardson-Lucy deconvolution step
`w(k+1) = w(k) * (observed / (kernel conv w(k)))`, elementwise. -/
def rlStep {n : ℕ} (K : Fin n → Fin n → ℚ) (obs w : Fin n → ℚ) : Fin n → ℚ :=
  fun i => w i * (obs i / kernelConv K w i)

/-- The `k`-th Richardson-Lucy iterate, starting from the naive weights. -/
def rlIter {n : ℕ} (K : Fin n → Fin n → ℚ) (obs : Fin n → ℚ) (k : ℕ)
    (w0 : Fin n → ℚ) : Fin n → ℚ :=
  (rlStep K obs)^[k] w0

/-- Renormalization of an indexed weight vector, with the same clamp policy as
`normalizeWeights`: a non-positive total falls back to uniform. -/
def normalizeFin {n : ℕ} (w : Fin n → ℚ) : Fin n → ℚ :=
  if (∑ i, w i) ≤ 0 then fun _ => 1 / (n : ℚ) else fun i => w i / ∑ j, w j

/-- Modelled from the spec: the full KIDS deconvolution of one outer iteration:
exactly `niter` Richardson-Lucy inner iterations followed by renormalization,
producing the weights used for resampling. -/
def deconvolve {n : ℕ} (K : Fin n → Fin n → ℚ) (obs : Fin n → ℚ) (niter : ℕ)
    (w0 : Fin n → ℚ) : Fin n → ℚ :=
  normalizeFin (rlIter K obs niter w0)

/-- Modelled from the spec: the Metropolis-Hastings acceptance probability
`min(1, exp(-b (U y - U x)) kernel-density-ratio)`, forced to `0` whenever the
candidate potential is `+infinity` (an infeasible state). -/
noncomputable def acceptProb (b : ℝ) (ux uy : EReal) (kr : ℝ) : ℝ :=
  if uy = ⊤ then 0 else min 1 (Real.exp (-(b * (uy.toReal - ux.toReal))) * kr)

/-- Acceptance probability of the move `x` to `prop x d` under potential `U`
and kernel log-density-ratio correction `krF` (given as a ratio). -/
noncomputable def mhAccept {X : Type} (b : ℝ) (U : X → EReal) (krF : X → X → ℝ)
    (x y : X) : ℝ :=
  acceptProb b (U x) (U y) (krF x y)

/-- Modelled from the spec: one PMH move of a single particle: propose
`y = prop x d`, accept when the uniform draw `u` falls below the acceptance
probability, otherwise keep the current position. -/
noncomputable def pmhMove {X D : Type} (b : ℝ) (U : X → EReal) (krF : X → X → ℝ)
    (prop : X → D → X) (x : X) (d : D) (u : ℝ) : X :=
  if u < mhAccept b U krF x (prop x d) then prop x d else x

/-- The annealing inverse temperature as a real number. -/
noncomputable def betaR (A t : ℕ) : ℝ :=
  ((beta A t : ℚ) : ℝ)

/-- Modelled from the spec: the vectorized PMH update of a whole population,
one independent accept/reject decision per particle. -/
noncomputable def pmhPop {X D : Type} (b : ℝ) (U : X → EReal) (krF : X → X → ℝ)
    (prop : X → D → X) (xs : List X) (dus : List (D × ℝ)) : List X :=
  List.zipWith (fun x du => pmhMove b U krF prop x du.1 du.2) xs dus

/-- Inverse-CDF lookup: the first index whose cumulative weight exceeds the
uniform draw. -/
noncomputable def invCdf : List ℝ → ℝ → ℕ
  | [], _ => 0
  | a :: rest, u => if u < a then 0 else invCdf rest (u - a) + 1

/-- Real-valued weight normalization with the same clamp policy as
`normalizeWeights`. -/
noncomputable def normalizeR (w : List ℝ) : List ℝ :=
  if (w.map (fun x => max x 0)).sum ≤ 0 then
    List.replicate w.length (1 / (w.length : ℝ))
  else
    (w.map (fun x => max x 0)).map (fun x => x / (w.map (fun y => max y 0)).sum)

/-- Modelled from the spec: multinomial resampling with replacement: each
resampling draw selects one particle proportionally to the normalized
weights. -/
noncomputable def resample {X : Type} [Inhabited X] (xs : List X) (w : List ℝ)
    (rs : List ℝ) : List X :=
  rs.map (fun r => xs.getD (invCdf (normalizeR w) r) default)

/-- Modelled from the spec: one CMC iteration: every particle makes its
MH-style accept/reject decision exactly as in PMH, the acceptance
probabilities are then treated as unnormalized importance weights across the
whole population, and the population is resampled with replacement
proportionally to them. -/
noncomputable def cmcIter {X D : Type} [Inhabited X] (b : ℝ) (U : X → EReal)
    (krF : X → X → ℝ) (prop : X → D → X) (xs : List X) (dus : List (D × ℝ))
    (rs : List ℝ) : List X :=
  resample (pmhPop b U krF prop xs dus)
    (List.zipWith (fun x (du : D × ℝ) => mhAccept b U krF x (prop x du.1)) xs dus) rs

/-- A PMH run: iterate `pmhMove` along a stream of proposal/uniform draws,
annealing the potential with `betaR A t` at iteration `t`. -/
noncomputable def pmhRun {X D : Type} (A : ℕ) (U : X → EReal) (krF : X → X → ℝ)
    (prop : X → D → X) : ℕ → X → List (D × ℝ) → X
  | _, x, [] => x
  | t, x, du :: rest =>
      pmhRun A U krF prop (t + 1) (pmhMove (betaR A t) U krF prop x du.1 du.2) rest

/-- A CMC run: iterate `cmcIter` along a stream of per-iteration draws (one
proposal/uniform pair per particle plus the resampling draws). -/
noncomputable def cmcRun {X D : Type} [Inhabited X] (A : ℕ) (U : X → EReal)
    (krF : X → X → ℝ) (prop : X → D → X) :
    ℕ → List X → List (List (D × ℝ) × List ℝ) → List X
  | _, xs, [] => xs
  | t, xs, s :: rest =>
      cmcRun A U krF prop (t + 1) (cmcIter (betaR A t) U krF prop xs s.1 s.2) rest

/-- The random draws consumed by one single-particle iteration: a proposal
draw, the acceptance uniform, and the resampling uniform. -/
structure IterDraw (D : Type) where
  d : D
  u : ℝ
  r : ℝ

/-- Modelled from the spec: one recorded NPAIS memory component: a location,
the bandwidth it was proposed with, and its (normalized) historical weight. -/
structure MComp (X : Type) where
  loc : X
  bw : ℝ
  weight : ℝ

/-- Total recorded weight of an NPAIS memory. -/
def sumW {X : Type} (mem : List (MComp X)) : ℝ :=
  (mem.map (fun c => c.weight)).sum

/-- Modelled from the spec: the NPAIS non-Markovian proposal density: the
mixture of all components recorded in memory plus the initial proposal `q0`,
each memory component a kernel of density `kd` at its recorded location and
bandwidth. -/
noncomputable def qMixture {X : Type} (q0d : X → ℝ) (kd : X → ℝ → X → ℝ)
    (mem : List (MComp X)) (x : X) : ℝ :=
  match mem with
  | [] => q0d x
  | _ :: _ => (q0d x + (mem.map (fun c => c.weight * kd c.loc c.bw x)).sum) / 2

/-- Modelled from the spec: the unnormalized NPAIS importance weight
`exp(-U x) / q-mixture x` of a new candidate `x`. -/
noncomputable def rawWeight {X : Type} (U : X → ℝ) (q0d : X → ℝ)
    (kd : X → ℝ → X → ℝ) (mem : List (MComp X)) (x : X) : ℝ :=
  Real.exp (-(U x)) / qMixture q0d kd mem x

/-- Modelled from the spec: the global renormalization of the NPAIS memory,
with the clamp policy of `normalizeWeights` for a non-positive total. -/
noncomputable def normalizeMem {X : Type} (mem : List (MComp X)) : List (MComp X) :=
  if sumW mem ≤ 0 then mem.map (fun c => ⟨c.loc, c.bw, 1 / (mem.length : ℝ)⟩)
  else mem.map (fun c => ⟨c.loc, c.bw, c.weight / sumW mem⟩)

/-- Modelled from the spec: one NPAIS iteration: weigh the new batch against
the current memory mixture, append it to the memory (locations, bandwidths,
weights), and recompute the global normalization over the full accumulated
set. -/
noncomputable def npaisStep {X : Type} (U : X → ℝ) (q0d : X → ℝ)
    (kd : X → ℝ → X → ℝ) (bwF : X → ℝ) (mem : List (MComp X)) (xs : List X) :
    List (MComp X) :=
  normalizeMem (mem ++ xs.map (fun x => ⟨x, bwF x, rawWeight U q0d kd mem x⟩))

/-- An NPAIS run over a list of per-iteration candidate batches, starting from
an empty memory (the first batch is the `t = 0` sample from `q0`, for which
the memory mixture degenerates to `q0` itself). -/
noncomputable def npaisRun {X : Type} (U : X → ℝ) (q0d : X → ℝ)
    (kd : X → ℝ → X → ℝ) (bwF : X → ℝ) (batches : List (List X)) :
    List (MComp X) :=
  batches.foldl (fun mem bb => npaisStep U q0d kd bwF mem bb) []

/-- Modelled from the spec: the construction surface every sampler shares:
space-bound initial population, proposal scales, annealing length, and the
target bound later by `fit`. -/
structure MSampler (X T : Type) where
  start : List X
  scales : List ℚ
  annealing : ℕ
  target : Option T

/-- Modelled from the spec: `fit` binds a target onto the sampler and returns
the sampler itself, so construction and target binding chain. -/
def fitS {X T : Type} (s : MSampler X T) (d : T) : MSampler X T :=
  { s with target := some d }

/-- Modelled from the spec: a running engine keeps its own copy of the
caller's initial population, taken at INIT, next to the evolving one. -/
structure RunState (X : Type) where
  startPop : List X
  population : List X
  t : ℕ

/-- INIT: copy the caller-supplied initial population into the engine. -/
def initState {X : Type} (start : List X) : RunState X :=
  ⟨start, start, 0⟩

/-- The shared engine loop: each iteration rewrites only the engine-owned
population (through the algorithm-specific update) and advances the counter;
the recorded initial population is never written again. -/
def runLoop {X : Type} (update : ℕ → List X → List X) : ℕ → RunState X → RunState X
  | 0, st => st
  | k + 1, st => runLoop update k ⟨st.startPop, update st.t st.population, st.t + 1⟩

/-- Sum of a list divided elementwise equals the divided sum. -/
theorem list_sum_map_div {α : Type} [DivisionRing α] (l : List α) (t : α) :
    (l.map (fun x => x / t)).sum = l.sum / t := by
  induction l with
  | nil => simp
  | cons a r ih => simp [ih, add_div]

/-- Every entry of the clamped normalization is non-negative. -/
theorem normalizeWeights_nonneg (w : List ℚ) : ∀ x ∈ normalizeWeights w, 0 ≤ x := by
  intro x hx
  unfold normalizeWeights at hx
  split_ifs at hx with h
  · rcases List.eq_of_mem_replicate hx with rfl
    exact div_nonneg zero_le_one (by positivity)
  · rcases List.mem_map.mp hx with ⟨a, ha, rfl⟩
    rcases List.mem_map.mp ha with ⟨y, _, rfl⟩
    exact div_nonneg (le_max_right y 0) (le_of_lt (lt_of_not_le h))

/-- On a non-empty list the clamped normalization sums to `1`. -/
theorem normalizeWeights_sum (w : List ℚ) (hw : w ≠ []) :
    (normalizeWeights w).sum = 1 := by
  have hlen : 0 < w.length := List.length_pos.mpr hw
  unfold normalizeWeights
  split_ifs with h
  · rw [List.sum_replicate, nsmul_eq_mul, mul_one_div, div_self]
    exact_mod_cast hlen.ne'
  · rw [list_sum_map_div, div_self (lt_of_not_le h).ne']

/-- The clamped normalization preserves the population size. -/
theorem normalizeWeights_length (w : List ℚ) :
    (normalizeWeights w).length = w.length := by
  unfold normalizeWeights
  split_ifs <;> simp

/-- One annealing step never decreases the inverse temperature. -/
theorem beta_le_succ (A t : ℕ) : beta A t ≤ beta A (t + 1) := by
  have hA1 : (0:ℚ) < (A:ℚ) + 1 := by positivity
  unfold beta
  split_ifs with h1 h2
  · apply div_le_div_of_nonneg_right ?_ hA1.le
    push_cast
    linarith
  · rw [div_le_one hA1]
    have ht : (t:ℚ) < (A:ℚ) := by exact_mod_cast h1
    linarith
  · omega
  · exact le_refl 1

/-- The annealing schedule is monotone. -/
theorem beta_mono (A : ℕ) : Monotone (beta A) :=
  monotone_nat_of_le_succ (beta_le_succ A)

/-- C6: for every annealing length `A > 0`, the schedule `beta` is
non-decreasing in the iteration index, takes values in `(0,1]`, starts
strictly below `1`, and equals exactly `1` for every `t ≥ A`. -/
theorem annealing_schedule_props (A : ℕ) (hA : 0 < A) :
    (∀ s t : ℕ, s ≤ t → beta A s ≤ beta A t)
      ∧ (∀ t, 0 < beta A t ∧ beta A t ≤ 1)
      ∧ beta A 0 < 1
      ∧ (∀ t, A ≤ t → beta A t = 1) := by
  have hA1 : (0:ℚ) < (A:ℚ) + 1 := by positivity
  refine ⟨fun s t h => beta_mono A h, fun t => ?_, ?_, fun t ht => ?_⟩
  · unfold beta
    split_ifs with h
    · refine ⟨by positivity, ?_⟩
      rw [div_le_one hA1]
      have ht : (t:ℚ) < (A:ℚ) := by exact_mod_cast h
      linarith
    · exact ⟨one_pos, le_refl 1⟩
  · unfold beta
    rw [if_pos hA, div_lt_one hA1]
    have h1 : (1:ℚ) ≤ (A:ℚ) := by exact_mod_cast hA
    push_cast
    linarith
  · unfold beta
    rw [if_neg (by omega)]

/-- Witness for C6 at annealing length `3`. -/
theorem annealing_schedule_props_witness :
    0 < 3 ∧ beta 3 0 < 1 ∧ beta 3 5 = 1 :=
  ⟨by decide, (annealing_schedule_props 3 (by decide)).2.2.1,
    (annealing_schedule_props 3 (by decide)).2.2.2 5 (by decide)⟩

/-- C7: construction raises a configuration error exactly when the population
size is non-positive, the scale list is empty, the annealing schedule is
non-monotonic, or the deconvolution inner-iteration count is non-positive;
at runtime the weight-normalization clamp is total: on any weight list, zero
totals and negative entries included, it returns non-negative weights summing
to `1` instead of raising. -/
theorem construction_validation (c : SamplerConfig) (w : List ℚ) (hw : w ≠ []) :
    (validate c = .ok () ↔
        0 < c.popSize ∧ c.scales ≠ [] ∧ monotoneSchedule c.schedule = true
          ∧ 0 < c.innerIters)
      ∧ (∀ x ∈ normalizeWeights w, 0 ≤ x) ∧ (normalizeWeights w).sum = 1 := by
  refine ⟨?_, normalizeWeights_nonneg w, normalizeWeights_sum w hw⟩
  unfold validate
  split_ifs with h1 h2 h3 h4
  · constructor
    · intro h
      simp at h
    · rintro ⟨hp, -, -, -⟩
      exact absurd hp (not_lt.mpr h1)
  · constructor
    · intro h
      simp at h
    · rintro ⟨-, hs, -, -⟩
      exact absurd h2 hs
  · constructor
    · intro h
      simp at h
    · rintro ⟨-, -, hm, -⟩
      rw [hm] at h3
      exact Bool.noConfusion h3
  · constructor
    · intro h
      simp at h
    · rintro ⟨-, -, -, hi⟩
      exact absurd hi (not_lt.mpr h4)
  · constructor
    · intro _
      refine ⟨not_le.mp h1, h2, ?_, not_le.mp h4⟩
      cases hb : monotoneSchedule c.schedule with
      | true => rfl
      | false => exact absurd hb h3
    · intro _
      rfl

/-- Witness for C7 at a valid configuration and a weight list with a negative
entry. -/
theorem construction_validation_witness :
    ([(2:ℚ), -1] ≠ [] ∧ validate ⟨3, [1/2], [0, 1], 4⟩ = .ok ())
      ∧ (normalizeWeights [2, -1]).sum = 1 :=
  ⟨⟨by decide,
      (construction_validation ⟨3, [1/2], [0, 1], 4⟩ [2, -1] (by decide)).1.mpr
        (by refine ⟨by decide, by decide, by decide, by decide⟩)⟩,
    (construction_validation ⟨3, [1/2], [0, 1], 4⟩ [2, -1] (by decide)).2.2⟩

/-- All Richardson-Lucy iterates stay non-negative when the kernel, the
observation and the start vector are non-negative. -/
theorem rlIter_nonneg {n : ℕ} (K : Fin n → Fin n → ℚ) (obs w0 : Fin n → ℚ)
    (hK : ∀ i j, 0 ≤ K i j) (hobs : ∀ i, 0 ≤ obs i) (hw0 : ∀ i, 0 ≤ w0 i) :
    ∀ k i, 0 ≤ rlIter K obs k w0 i := by
  intro k
  induction k with
  | zero =>
      intro i
      simpa [rlIter] using hw0 i
  | succ k ih =>
      intro i
      have h : rlIter K obs (k + 1) w0 = rlStep K obs (rlIter K obs k w0) := by
        unfold rlIter
        exact Function.iterate_succ_apply' (rlStep K obs) k w0
      rw [h]
      unfold rlStep
      apply mul_nonneg (ih i)
      apply div_nonneg (hobs i)
      unfold kernelConv
      exact Finset.sum_nonneg fun j _ => mul_nonneg (hK i j) (ih j)

/-- The indexed renormalization sums to `1` on a non-empty index set. -/
theorem normalizeFin_sum {n : ℕ} (hn : 0 < n) (w : Fin n → ℚ) :
    ∑ i, normalizeFin w i = 1 := by
  unfold normalizeFin
  split_ifs with h
  · rw [Finset.sum_const, Finset.card_univ, Fintype.card_fin, nsmul_eq_mul,
      mul_one_div, div_self]
    exact_mod_cast hn.ne'
  · rw [← Finset.sum_div, div_self (lt_of_not_le h).ne']

/-- The indexed renormalization preserves non-negativity. -/
theorem normalizeFin_nonneg {n : ℕ} (w : Fin n → ℚ) (hw : ∀ i, 0 ≤ w i) :
    ∀ i, 0 ≤ normalizeFin w i := by
  intro i
  unfold normalizeFin
  split_ifs with h
  · exact div_nonneg zero_le_one (by positivity)
  · exact div_nonneg (hw i) (le_of_lt (lt_of_not_le h))

/-- C4: each KIDS outer iteration runs exactly the configured number of
Richardson-Lucy inner iterations through the elementwise recurrence
`w(k+1) = w(k) * (observed / (kernel conv w(k)))` over the proposing kernel
mixture; every intermediate iterate is non-negative, and the final vector is
renormalized so that it sums to `1` before resampling. -/
theorem kids_deconvolution {n : ℕ} (hn : 0 < n) (K : Fin n → Fin n → ℚ)
    (obs w0 : Fin n → ℚ) (niter : ℕ) (hK : ∀ i j, 0 ≤ K i j)
    (hobs : ∀ i, 0 ≤ obs i) (hw0 : ∀ i, 0 ≤ w0 i) :
    (∀ k i, rlIter K obs (k + 1) w0 i
        = rlIter K obs k w0 i * (obs i / kernelConv K (rlIter K obs k w0) i))
      ∧ (∀ k i, 0 ≤ rlIter K obs k w0 i)
      ∧ deconvolve K obs niter w0 = normalizeFin (rlIter K obs niter w0)
      ∧ (∑ i, deconvolve K obs niter w0 i) = 1
      ∧ (∀ i, 0 ≤ deconvolve K obs niter w0 i) := by
  refine ⟨?_, rlIter_nonneg K obs w0 hK hobs hw0, rfl, ?_, ?_⟩
  · intro k i
    have h : rlIter K obs (k + 1) w0 = rlStep K obs (rlIter K obs k w0) := by
      unfold rlIter
      exact Function.iterate_succ_apply' (rlStep K obs) k w0
    rw [h]
    rfl
  · exact normalizeFin_sum hn _
  · exact normalizeFin_nonneg _ (rlIter_nonneg K obs w0 hK hobs hw0 niter)

/-- Witness for C4 on a one-bin system with two inner iterations. -/
theorem kids_deconvolution_witness :
    0 < 1
      ∧ (∑ i, deconvolve (fun _ _ : Fin 1 => 1) (fun _ => 1) 2 (fun _ => 1) i) = 1 :=
  ⟨one_pos,
    (kids_deconvolution one_pos (fun _ _ : Fin 1 => 1) (fun _ => 1) (fun _ => 1) 2
      (fun _ _ => by norm_num) (fun _ => by norm_num) (fun _ => by norm_num)).2.2.2.1⟩

/-- C3: the PMH acceptance probability of particle `i` with position `x` and
candidate `y = prop x d` equals `min(1, exp(-b (U y - U x)) kernel-ratio)`
when the candidate is feasible, and is exactly `0` when `U y` is
`+infinity`, so an infeasible candidate is never accepted. -/
theorem pmh_acceptance {X D : Type} (b : ℝ) (U : X → EReal) (krF : X → X → ℝ)
    (prop : X → D → X) (x : X) (d : D) (u : ℝ) (hu : 0 ≤ u) :
    (U (prop x d) ≠ ⊤ → mhAccept b U krF x (prop x d)
        = min 1 (Real.exp (-(b * ((U (prop x d)).toReal - (U x).toReal)))
            * krF x (prop x d)))
      ∧ (U (prop x d) = ⊤ →
          mhAccept b U krF x (prop x d) = 0 ∧ pmhMove b U krF prop x d u = x) := by
  constructor
  · intro h
    unfold mhAccept acceptProb
    rw [if_neg h]
  · intro h
    have ha : mhAccept b U krF x (prop x d) = 0 := by
      unfold mhAccept acceptProb
      rw [if_pos h]
    refine ⟨ha, ?_⟩
    unfold pmhMove
    rw [ha, if_neg (not_lt.mpr hu)]

/-- Witness for C3: an infeasible candidate with uniform draw `0` is
rejected. -/
theorem pmh_acceptance_witness :
    (0:ℝ) ≤ 0
      ∧ (mhAccept 1 (fun _ : ℚ => (⊤ : EReal)) (fun _ _ => 1) 0 (0 + 0) = 0
          ∧ pmhMove 1 (fun _ : ℚ => (⊤ : EReal)) (fun _ _ => 1)
              (fun x d => x + d) 0 0 0 = 0) :=
  ⟨le_refl 0,
    (pmh_acceptance 1 (fun _ : ℚ => (⊤ : EReal)) (fun _ _ => 1)
      (fun x d => x + d) 0 0 0 (le_refl 0)).2 rfl⟩

/-- Normalizing a one-particle weight vector always yields weight `1`,
whatever the single raw weight was. -/
theorem normalizeR_singleton (a : ℝ) : normalizeR [a] = [1] := by
  unfold normalizeR
  split_ifs with h
  · norm_num
  · have h' : 0 < max a 0 := by
      simpa using lt_of_not_le h
    simp [div_self h'.ne']

/-- On a normalized one-particle weight vector every draw below `1` selects
index `0`. -/
theorem invCdf_singleton (u : ℝ) (hu : u < 1) : invCdf [1] u = 0 := by
  unfold invCdf
  rw [if_pos hu]

/-- A one-particle CMC iteration reduces to the PMH move: the resampling over
a single particle is the identity. -/
theorem cmcIter_singleton {X D : Type} [Inhabited X] (b : ℝ) (U : X → EReal)
    (krF : X → X → ℝ) (prop : X → D → X) (x : X) (d : D) (u r : ℝ) (hr : r < 1) :
    cmcIter b U krF prop [x] [(d, u)] [r] = [pmhMove b U krF prop x d u] := by
  unfold cmcIter pmhPop resample
  simp only [List.zipWith_cons_cons, List.zipWith_nil, List.map_cons, List.map_nil]
  rw [normalizeR_singleton, invCdf_singleton r hr]
  rfl

/-- C8: with a single particle and the same stream of random draws a CMC run
makes the same acceptance decisions and follows the same particle trajectory
as a PMH run: single-particle CMC degenerates to PMH. -/
theorem cmc_single_particle_is_pmh {X D : Type} [Inhabited X] (A : ℕ)
    (U : X → EReal) (krF : X → X → ℝ) (prop : X → D → X) (t : ℕ) (x : X)
    (stream : List (IterDraw D)) (hr : ∀ s ∈ stream, s.r < 1) :
    cmcRun A U krF prop t [x] (stream.map (fun s => ([(s.d, s.u)], [s.r])))
      = [pmhRun A U krF prop t x (stream.map (fun s => (s.d, s.u)))] := by
  induction stream generalizing t x with
  | nil => rfl
  | cons s rest ih =>
      have h1 : cmcRun A U krF prop t [x]
            ((s :: rest).map (fun s => ([(s.d, s.u)], [s.r])))
          = cmcRun A U krF prop (t + 1)
              (cmcIter (betaR A t) U krF prop [x] [(s.d, s.u)] [s.r])
              (rest.map (fun s => ([(s.d, s.u)], [s.r]))) := rfl
      have h2 : pmhRun A U krF prop t x ((s :: rest).map (fun s => (s.d, s.u)))
          = pmhRun A U krF prop (t + 1) (pmhMove (betaR A t) U krF prop x s.d s.u)
              (rest.map (fun s => (s.d, s.u))) := rfl
      rw [h1, h2, cmcIter_singleton (betaR A t) U krF prop x s.d s.u s.r
        (hr s (List.mem_cons_self s rest))]
      exact ih _ _ (fun q hq => hr q (List.mem_cons_of_mem s hq))

/-- Witness for C8 on a one-step stream of draws. -/
theorem cmc_single_particle_is_pmh_witness :
    (∀ s ∈ [(⟨0, 0, 0⟩ : IterDraw ℚ)], s.r < 1)
      ∧ cmcRun 1 (fun _ : ℚ => (⊤ : EReal)) (fun _ _ => 1) (fun x d => x + d) 0 [0]
          ([(⟨0, 0, 0⟩ : IterDraw ℚ)].map (fun s => ([(s.d, s.u)], [s.r])))
        = [pmhRun 1 (fun _ : ℚ => (⊤ : EReal)) (fun _ _ => 1) (fun x d => x + d) 0 0
            ([(⟨0, 0, 0⟩ : IterDraw ℚ)].map (fun s => (s.d, s.u)))] := by
  have h : ∀ s ∈ [(⟨0, 0, 0⟩ : IterDraw ℚ)], s.r < 1 := by
    intro s hs
    rw [List.mem_singleton] at hs
    subst hs
    norm_num
  exact ⟨h, cmc_single_particle_is_pmh 1 (fun _ : ℚ => (⊤ : EReal)) (fun _ _ => 1)
    (fun x d => x + d) 0 0 [⟨0, 0, 0⟩] h⟩

/-- One NPAIS iteration grows the memory by exactly the batch size. -/
theorem npaisStep_length {X : Type} (U q0d : X → ℝ) (kd : X → ℝ → X → ℝ)
    (bwF : X → ℝ) (mem : List (MComp X)) (xs : List X) :
    (npaisStep U q0d kd bwF mem xs).length = mem.length + xs.length := by
  unfold npaisStep normalizeMem
  split_ifs <;> simp

/-- Folding NPAIS iterations over batches adds every batch size to the
memory: the memory is never pruned. -/
theorem npaisFold_length {X : Type} (U q0d : X → ℝ) (kd : X → ℝ → X → ℝ)
    (bwF : X → ℝ) (batches : List (List X)) (mem : List (MComp X)) :
    (batches.foldl (fun m bb => npaisStep U q0d kd bwF m bb) mem).length
      = mem.length + (batches.map List.length).sum := by
  induction batches generalizing mem with
  | nil => simp
  | cons bb rest ih =>
      simp only [List.foldl_cons, List.map_cons, List.sum_cons]
      rw [ih, npaisStep_length]
      omega

/-- Batches of equal size `N` contribute `N` times their count. -/
theorem batches_length_sum {X : Type} (N : ℕ) (batches : List (List X))
    (hb : ∀ bb ∈ batches, bb.length = N) :
    (batches.map List.length).sum = N * batches.length := by
  induction batches with
  | nil => simp
  | cons bb rest ih =>
      simp only [List.map_cons, List.sum_cons, List.length_cons]
      rw [hb bb (List.mem_cons_self bb rest),
        ih (fun b h => hb b (List.mem_cons_of_mem bb h))]
      ring

/-- C2: the population size is invariant across iterations for every
algorithm: the PMH update and the CMC update (resampling included) return as
many particles as they received; the NPAIS memory grows by exactly `N`
entries per iteration, is never pruned, and holds `N * (t+1)` entries after
`t+1` completed iterations, the initial iteration `t = 0` included. -/
theorem population_size_invariant {X D : Type} [Inhabited X] (b : ℝ)
    (U : X → EReal) (krF : X → X → ℝ) (prop : X → D → X) (xs : List X)
    (dus : List (D × ℝ)) (rs : List ℝ) (hdu : dus.length = xs.length)
    (hrs : rs.length = xs.length) (Ur q0d : X → ℝ) (kd : X → ℝ → X → ℝ)
    (bwF : X → ℝ) (N : ℕ) (batches : List (List X))
    (hb : ∀ bb ∈ batches, bb.length = N) (mem : List (MComp X)) (bb : List X) :
    (pmhPop b U krF prop xs dus).length = xs.length
      ∧ (cmcIter b U krF prop xs dus rs).length = xs.length
      ∧ (npaisStep Ur q0d kd bwF mem bb).length = mem.length + bb.length
      ∧ (npaisRun Ur q0d kd bwF batches).length = N * batches.length := by
  refine ⟨?_, ?_, npaisStep_length Ur q0d kd bwF mem bb, ?_⟩
  · unfold pmhPop
    rw [List.length_zipWith, hdu, min_self]
  · unfold cmcIter resample
    rw [List.length_map, hrs]
  · unfold npaisRun
    rw [npaisFold_length, batches_length_sum N batches hb]
    simp

/-- Witness for C2 with one particle and one NPAIS batch. -/
theorem population_size_invariant_witness :
    ([((0:ℚ), (0:ℝ))].length = [(0:ℚ)].length)
      ∧ (npaisRun (fun _ : ℚ => 0) (fun _ => 1) (fun _ _ _ => 1) (fun _ => 0)
          [[0]]).length = 1 * [[(0:ℚ)]].length :=
  ⟨rfl,
    (population_size_invariant 1 (fun _ : ℚ => (⊤ : EReal)) (fun _ _ => 1)
      (fun x d => x + d) [0] [(0, 0)] [0] rfl rfl (fun _ => 0) (fun _ => 1)
      (fun _ _ _ => 1) (fun _ => 0) 1 [[0]]
      (by
        intro bb hbb
        rw [List.mem_singleton] at hbb
        subst hbb
        rfl)
      [] [0]).2.2.2⟩

/-- Total weight distributes over memory concatenation. -/
theorem sumW_append {X : Type} (m1 m2 : List (MComp X)) :
    sumW (m1 ++ m2) = sumW m1 + sumW m2 := by
  unfold sumW
  rw [List.map_append, List.sum_append]

/-- Dividing every recorded weight divides the total. -/
theorem sumW_map_div {X : Type} (mem : List (MComp X)) (t : ℝ) :
    sumW (mem.map (fun c => ⟨c.loc, c.bw, c.weight / t⟩)) = sumW mem / t := by
  unfold sumW
  induction mem with
  | nil => simp
  | cons c rest ih => simp_all [add_div]

/-- Overwriting every recorded weight with a constant sums to size times the
constant. -/
theorem sumW_map_const {X : Type} (mem : List (MComp X)) (a : ℝ) :
    sumW (mem.map (fun c => ⟨c.loc, c.bw, a⟩)) = mem.length * a := by
  unfold sumW
  induction mem with
  | nil => simp
  | cons c rest ih =>
      simp_all
      ring

/-- Renormalizing a non-empty memory of non-negative weights yields
non-negative weights of total `1`. -/
theorem normalizeMem_valid {X : Type} (mem : List (MComp X)) (hne : mem ≠ [])
    (hw : ∀ c ∈ mem, 0 ≤ c.weight) :
    (∀ c ∈ normalizeMem mem, 0 ≤ c.weight) ∧ sumW (normalizeMem mem) = 1 := by
  have hlen : 0 < mem.length := List.length_pos.mpr hne
  unfold normalizeMem
  split_ifs with h
  · constructor
    · intro c hc
      rcases List.mem_map.mp hc with ⟨c0, _, rfl⟩
      exact div_nonneg zero_le_one (by positivity)
    · rw [sumW_map_const, mul_one_div, div_self]
      exact_mod_cast hlen.ne'
  · have ht : 0 < sumW mem := lt_of_not_le h
    constructor
    · intro c hc
      rcases List.mem_map.mp hc with ⟨c0, hc0, rfl⟩
      exact div_nonneg (hw c0 hc0) ht.le
    · rw [sumW_map_div, div_self ht.ne']

/-- The raw NPAIS importance weight is non-negative whenever the initial
proposal density, the kernel density, and the recorded memory weights are. -/
theorem rawWeight_nonneg {X : Type} (U q0d : X → ℝ) (kd : X → ℝ → X → ℝ)
    (mem : List (MComp X)) (x : X) (hq0 : ∀ y, 0 ≤ q0d y)
    (hkd : ∀ l r y, 0 ≤ kd l r y) (hw : ∀ c ∈ mem, 0 ≤ c.weight) :
    0 ≤ rawWeight U q0d kd mem x := by
  unfold rawWeight
  apply div_nonneg (Real.exp_nonneg _)
  cases mem with
  | nil => exact hq0 x
  | cons c rest =>
      show 0 ≤ (q0d x + ((c :: rest).map (fun c => c.weight * kd c.loc c.bw x)).sum) / 2
      apply div_nonneg ?_ (by norm_num)
      apply add_nonneg (hq0 x)
      apply List.sum_nonneg
      intro a ha
      rcases List.mem_map.mp ha with ⟨c0, hc0, rfl⟩
      exact mul_nonneg (hw c0 hc0) (hkd c0.loc c0.bw x)

/-- One NPAIS iteration on a memory of non-negative weights yields a
non-negative memory whose total weight is `1` when it is non-empty. -/
theorem npaisStep_invariant {X : Type} (U q0d : X → ℝ) (kd : X → ℝ → X → ℝ)
    (bwF : X → ℝ) (hq0 : ∀ y, 0 ≤ q0d y) (hkd : ∀ l r y, 0 ≤ kd l r y)
    (mem : List (MComp X)) (xs : List X) (hw : ∀ c ∈ mem, 0 ≤ c.weight) :
    (∀ c ∈ npaisStep U q0d kd bwF mem xs, 0 ≤ c.weight)
      ∧ (npaisStep U q0d kd bwF mem xs ≠ []
          → sumW (npaisStep U q0d kd bwF mem xs) = 1) := by
  have hmemnn : ∀ c ∈ mem ++ xs.map (fun x => (⟨x, bwF x,
      rawWeight U q0d kd mem x⟩ : MComp X)), 0 ≤ c.weight := by
    intro c hc
    rcases List.mem_append.mp hc with h | h
    · exact hw c h
    · rcases List.mem_map.mp h with ⟨x, _, rfl⟩
      exact rawWeight_nonneg U q0d kd mem x hq0 hkd hw
  by_cases hboth : mem = [] ∧ xs = []
  · rcases hboth with ⟨h1, h2⟩
    subst h1
    subst h2
    have h0 : npaisStep U q0d kd bwF ([] : List (MComp X)) [] = [] := by
      unfold npaisStep normalizeMem
      split_ifs <;> rfl
    rw [h0]
    exact ⟨by simp, fun hcon => absurd rfl hcon⟩
  · have hne : mem ++ xs.map (fun x => (⟨x, bwF x,
        rawWeight U q0d kd mem x⟩ : MComp X)) ≠ [] := by
      intro hcon
      rcases List.append_eq_nil.mp hcon with ⟨ha, hb⟩
      exact hboth ⟨ha, List.map_eq_nil_iff.mp hb⟩
    have hv := normalizeMem_valid _ hne hmemnn
    exact ⟨hv.1, fun _ => hv.2⟩

/-- The NPAIS invariant propagates along a whole run. -/
theorem npaisFold_invariant {X : Type} (U q0d : X → ℝ) (kd : X → ℝ → X → ℝ)
    (bwF : X → ℝ) (hq0 : ∀ y, 0 ≤ q0d y) (hkd : ∀ l r y, 0 ≤ kd l r y)
    (batches : List (List X)) (mem : List (MComp X))
    (hw : ∀ c ∈ mem, 0 ≤ c.weight) (hs : mem ≠ [] → sumW mem = 1) :
    (∀ c ∈ batches.foldl (fun m bb => npaisStep U q0d kd bwF m bb) mem,
        0 ≤ c.weight)
      ∧ (batches.foldl (fun m bb => npaisStep U q0d kd bwF m bb) mem ≠ []
          → sumW (batches.foldl (fun m bb => npaisStep U q0d kd bwF m bb) mem)
              = 1) := by
  induction batches generalizing mem with
  | nil => exact ⟨hw, hs⟩
  | cons bb rest ih =>
      simp only [List.foldl_cons]
      have step := npaisStep_invariant U q0d kd bwF hq0 hkd mem bb hw
      exact ih _ step.1 step.2

/-- C1: after every UPDATE step the population weights, where the algorithm
defines them, are finite and non-negative and sum to exactly `1`: the uniform
weights the CMC family assigns after resampling, the clamped normalization
every reweighting step ends in, and the NPAIS memory weights after any run.
-/
theorem weights_valid_after_update {X : Type} (n : ℕ) (hn : 0 < n) (w : List ℚ)
    (hw : w ≠ []) (U q0d : X → ℝ) (kd : X → ℝ → X → ℝ) (bwF : X → ℝ)
    (hq0 : ∀ y, 0 ≤ q0d y) (hkd : ∀ l r y, 0 ≤ kd l r y)
    (batches : List (List X)) (hne : batches ≠ [])
    (hbne : ∀ bb ∈ batches, bb ≠ []) :
    ((uniformWeights n).sum = 1 ∧ ∀ q ∈ uniformWeights n, 0 ≤ q)
      ∧ ((normalizeWeights w).sum = 1 ∧ ∀ q ∈ normalizeWeights w, 0 ≤ q)
      ∧ (sumW (npaisRun U q0d kd bwF batches) = 1
          ∧ ∀ c ∈ npaisRun U q0d kd bwF batches, 0 ≤ c.weight) := by
  refine ⟨⟨?_, ?_⟩, ⟨normalizeWeights_sum w hw, normalizeWeights_nonneg w⟩, ?_⟩
  · unfold uniformWeights
    rw [List.sum_replicate, nsmul_eq_mul, mul_one_div, div_self]
    exact_mod_cast hn.ne'
  · intro q hq
    rcases List.eq_of_mem_replicate hq with rfl
    exact div_nonneg zero_le_one (by positivity)
  · have hinv := npaisFold_invariant U q0d kd bwF hq0 hkd batches []
      (by intro c hc; exact absurd hc (List.not_mem_nil c))
      (fun hcon => absurd rfl hcon)
    have hlen : (npaisRun U q0d kd bwF batches).length
        = (batches.map List.length).sum := by
      unfold npaisRun
      rw [npaisFold_length]
      simp
    have hpos : 0 < (batches.map List.length).sum := by
      cases batches with
      | nil => exact absurd rfl hne
      | cons bb rest =>
          have h1 : 0 < bb.length :=
            List.length_pos.mpr (hbne bb (List.mem_cons_self bb rest))
          simp only [List.map_cons, List.sum_cons]
          omega
    have hne2 : npaisRun U q0d kd bwF batches ≠ [] := by
      intro hcon
      have h0 : (npaisRun U q0d kd bwF batches).length = 0 := by
        rw [hcon]
        rfl
      rw [hlen] at h0
      omega
    exact ⟨hinv.2 hne2, hinv.1⟩

/-- Witness for C1 with two particles, a weight list holding a negative
entry, and one NPAIS batch. -/
theorem weights_valid_after_update_witness :
    0 < 2 ∧ (uniformWeights 2).sum = 1 ∧ (normalizeWeights [2, -1]).sum = 1
      ∧ sumW (npaisRun (fun _ : ℚ => 0) (fun _ => 1) (fun _ _ _ => 1)
          (fun _ => 0) [[0]]) = 1 := by
  have h := weights_valid_after_update 2 (by decide) [2, -1] (by decide)
    (fun _ : ℚ => 0) (fun _ => 1) (fun _ _ _ => 1) (fun _ => 0)
    (fun _ => by norm_num) (fun _ _ _ => by norm_num) [[0]] (by decide)
    (by
      intro bb hbb
      rw [List.mem_singleton] at hbb
      subst hbb
      decide)
  exact ⟨by decide, h.1.1, h.2.1.1, h.2.2.1⟩

/-- C5: at every NPAIS iteration the importance weight recorded for each new
candidate `x` is proportional, with one positive constant shared by the whole
batch, to `exp(-U x) / q-mixture x`, the mixture ranging over all components
recorded in memory plus `q0`; after the batch is appended the global
normalization of the memory is recomputed so that the full accumulated set of
recorded weights, old and new together, is a probability distribution. -/
theorem npais_importance_weights {X : Type} (U q0d : X → ℝ)
    (kd : X → ℝ → X → ℝ) (bwF : X → ℝ) (mem : List (MComp X)) (xs : List X)
    (hq0 : ∀ y, 0 ≤ q0d y) (hkd : ∀ l r y, 0 ≤ kd l r y)
    (hw : ∀ c ∈ mem, 0 ≤ c.weight)
    (htot : 0 < sumW (mem ++ xs.map (fun x =>
        ⟨x, bwF x, rawWeight U q0d kd mem x⟩))) :
    ∃ cst : ℝ, 0 < cst
      ∧ (npaisStep U q0d kd bwF mem xs).drop mem.length
          = xs.map (fun x =>
              ⟨x, bwF x, cst * (Real.exp (-(U x)) / qMixture q0d kd mem x)⟩)
      ∧ sumW (npaisStep U q0d kd bwF mem xs) = 1
      ∧ ∀ c ∈ npaisStep U q0d kd bwF mem xs, 0 ≤ c.weight := by
  have hne : mem ≠ [] ∨ xs ≠ [] := by
    by_contra hcon
    push_neg at hcon
    rcases hcon with ⟨h1, h2⟩
    subst h1
    subst h2
    simp [sumW] at htot
  have hv := npaisStep_invariant U q0d kd bwF hq0 hkd mem xs hw
  have hne2 : npaisStep U q0d kd bwF mem xs ≠ [] := by
    intro hcon
    have h0 : (npaisStep U q0d kd bwF mem xs).length = 0 := by
      rw [hcon]
      rfl
    rw [npaisStep_length] at h0
    rcases hne with h | h
    · exact h (List.length_eq_zero.mp (by omega))
    · exact h (List.length_eq_zero.mp (by omega))
  refine ⟨(sumW (mem ++ xs.map (fun x =>
      ⟨x, bwF x, rawWeight U q0d kd mem x⟩)))⁻¹, inv_pos.mpr htot, ?_,
    hv.2 hne2, hv.1⟩
  unfold npaisStep normalizeMem
  rw [if_neg (not_le.mpr htot)]
  rw [List.map_append]
  rw [List.drop_left' (by rw [List.length_map])]
  rw [List.map_map]
  apply List.map_congr_left
  intro x _
  show (⟨x, bwF x, rawWeight U q0d kd mem x / sumW (mem ++ xs.map (fun x =>
      ⟨x, bwF x, rawWeight U q0d kd mem x⟩))⟩ : MComp X) = _
  unfold rawWeight
  rw [div_eq_mul_inv, mul_comm]

/-- Witness for C5: one candidate weighted against an empty memory. -/
theorem npais_importance_weights_witness :
    0 < sumW (([] : List (MComp ℚ)) ++ [(0:ℚ)].map (fun x =>
        ⟨x, (0:ℝ), rawWeight (fun _ : ℚ => 0) (fun _ => 1) (fun _ _ _ => 1) [] x⟩))
      ∧ sumW (npaisStep (fun _ : ℚ => 0) (fun _ => 1) (fun _ _ _ => 1)
          (fun _ => 0) [] [0]) = 1 := by
  have htot : 0 < sumW (([] : List (MComp ℚ)) ++ [(0:ℚ)].map (fun x =>
      ⟨x, (0:ℝ), rawWeight (fun _ : ℚ => 0) (fun _ => 1) (fun _ _ _ => 1) [] x⟩)) := by
    simp [sumW, rawWeight, qMixture]
  obtain ⟨cst, hc, hdrop, hsum, hnn⟩ :=
    npais_importance_weights (fun _ : ℚ => 0) (fun _ => 1) (fun _ _ _ => 1)
      (fun _ => 0) [] [0] (fun _ => by norm_num) (fun _ _ _ => by norm_num)
      (by intro c hc; exact absurd hc (List.not_mem_nil c)) htot
  exact ⟨htot, hsum⟩

/-- C9: `fit` binds the target and returns the sampler itself: the result
carries the sampler's own configuration fields unchanged with the target now
set, so construction and target binding chain into a usable fitted sampler. -/
theorem fit_returns_sampler {X T : Type} (s : MSampler X T) (d : T) :
    fitS s d = { start := s.start, scales := s.scales, annealing := s.annealing,
                 target := some d }
      ∧ ((fitS s d).target).isSome = true :=
  ⟨rfl, rfl⟩

/-- C10: a run never rewrites the caller-supplied initial population: INIT
copies it into the engine-owned state, every iteration of the shared loop
(whatever update the six algorithms plug in) rewrites only the engine-owned
population, and a sampler constructed from the same start value still begins
from exactly that value. -/
theorem start_population_unchanged {X : Type} (update : ℕ → List X → List X)
    (iters : ℕ) (start : List X) :
    (runLoop update iters (initState start)).startPop = start
      ∧ (initState start).population = start := by
  refine ⟨?_, rfl⟩
  have h : ∀ k (st : RunState X), (runLoop update k st).startPop = st.startPop := by
    intro k
    induction k with
    | zero => intro st; rfl
    | succ k ih => intro st; exact ih _
  exact h iters _
